import Mathlib

/-!
Shallow embedding of `libc/src/__support/CPP/bit.h` (LLVM libc's support
version of the C++20 `<bit>` header).

Modelling conventions: an unsigned integer type `T` is represented by its bit
width `N = cpp::numeric_limits<T>::digits` (a `Nat` parameter); a value of `T`
is a natural number `< 2 ^ N`.  The C `int` rotation amount, which can be
negative, is modelled as `Int`; the implicit conversion of a 32-bit `int` to
`unsigned` is reduction modulo `2 ^ 32`.  Unsigned shifts, masks and bitwise
operations are the corresponding `Nat` operations, with an explicit `% 2 ^ N`
where the C arithmetic wraps.
-/

namespace LibcBit

/-- The `while (shift) { ... }` loop of the generic bisection `countr_zero`
from `bit.h`: if the bits of `value` selected by `mask` are all zero, the value
is shifted down by `shift` and `shift` is recorded in `zero_bits`; then `shift`
is halved and `mask` is shifted down by the new `shift`. -/
def countr_zero_loop (value zero_bits shift mask : Nat) : Nat :=
  if shift = 0 then zero_bits
  else if value &&& mask = 0 then
    countr_zero_loop (value >>> shift) (zero_bits ||| shift) (shift >>> 1)
      (mask >>> (shift >>> 1))
  else
    countr_zero_loop value zero_bits (shift >>> 1) (mask >>> (shift >>> 1))
termination_by shift
decreasing_by
  all_goals omega

/-- The generic bisection `countr_zero<T>` from `bit.h`, with the type `T`
replaced by its digit count `N`: zero input returns `N`, an odd input returns
`0`, and otherwise the bisection loop runs with initial
`shift = digits >> 1` and `mask = numeric_limits<T>::max() >> shift`. -/
def countr_zero (N value : Nat) : Nat :=
  if value = 0 then N
  else if value &&& 1 ≠ 0 then 0
  else countr_zero_loop value 0 (N >>> 1) ((2 ^ N - 1) >>> (N >>> 1))

/-- The `for (shift = digits >> 1; shift; shift >>= 1)` loop of the generic
bisection `countl_zero` from `bit.h`: `tmp = value >> shift`; if `tmp` is
nonzero the value is replaced by `tmp`, otherwise `shift` is recorded in
`zero_bits`. -/
def countl_zero_loop (value zero_bits shift : Nat) : Nat :=
  if shift = 0 then zero_bits
  else if value >>> shift ≠ 0 then
    countl_zero_loop (value >>> shift) zero_bits (shift >>> 1)
  else
    countl_zero_loop value (zero_bits ||| shift) (shift >>> 1)
termination_by shift
decreasing_by
  all_goals omega

/-- The generic bisection `countl_zero<T>` from `bit.h`: zero input returns
`N`, otherwise the bisection loop runs with initial `shift = digits >> 1`. -/
def countl_zero (N value : Nat) : Nat :=
  if value = 0 then N
  else countl_zero_loop value 0 (N >>> 1)

/-- Modelled from the spec: the compiler builtins `__builtin_ctzs`,
`__builtin_ctz`, `__builtin_ctzl`, `__builtin_ctzll` used by the
`ADD_SPECIALIZATION` instances of `countr_zero` are not part of the
repository; per the spec they are the native "count trailing zero bits"
instruction, i.e. the number of consecutive zero bits starting at the least
significant bit (the zero input never reaches them because the specialization
tests for zero first). -/
def builtin_ctz (v : Nat) : Nat :=
  if v = 0 ∨ v % 2 = 1 then 0 else builtin_ctz (v / 2) + 1
termination_by v
decreasing_by
  omega

/-- Modelled from the spec: the compiler builtins `__builtin_clzs`,
`__builtin_clz`, `__builtin_clzl`, `__builtin_clzll` used by the
`ADD_SPECIALIZATION` instances of `countl_zero` are not part of the
repository; per the spec they are the native "count leading zero bits"
instruction on the `N`-bit value, i.e. `N - 1` minus the index of the highest
set bit (the zero input never reaches them). -/
def builtin_clz (N v : Nat) : Nat := N - 1 - Nat.log 2 v

/-- The body generated by `ADD_SPECIALIZATION(countr_zero, TYPE, BUILTIN)` in
`bit.h`: `value == 0 ? cpp::numeric_limits<TYPE>::digits : BUILTIN(value)`. -/
def countr_zero_specialized (N value : Nat) : Nat :=
  if value = 0 then N else builtin_ctz value

/-- The body generated by `ADD_SPECIALIZATION(countl_zero, TYPE, BUILTIN)` in
`bit.h`: `value == 0 ? cpp::numeric_limits<TYPE>::digits : BUILTIN(value)`. -/
def countl_zero_specialized (N value : Nat) : Nat :=
  if value = 0 then N else builtin_clz N value

/-- The function `countl_one<T>` from `bit.h`: `countl_zero<T>(~value)`.  For
`value < 2 ^ N` the bitwise complement within `T` is
`(2 ^ N - 1) ^^^ value`. -/
def countl_one (N value : Nat) : Nat :=
  countl_zero N ((2 ^ N - 1) ^^^ value)

/-- The function `countr_one<T>` from `bit.h`: `countr_zero<T>(~value)`. -/
def countr_one (N value : Nat) : Nat :=
  countr_zero N ((2 ^ N - 1) ^^^ value)

/-- The function `bit_width<T>` from `bit.h`:
`cpp::numeric_limits<T>::digits - cpp::countl_zero(value)`. -/
def bit_width (N value : Nat) : Nat :=
  N - countl_zero N value

/-- The function `bit_floor<T>` from `bit.h`: `0` on zero input, otherwise
`T(1) << (cpp::bit_width(value) - 1)`. -/
def bit_floor (N value : Nat) : Nat :=
  if value = 0 then 0 else 1 <<< (bit_width N value - 1)

/-- The function `bit_ceil<T>` from `bit.h`: `1` when `value < 2`, otherwise
`T(1) << cpp::bit_width<T>(value - 1u)`. -/
def bit_ceil (N value : Nat) : Nat :=
  if value < 2 then 1 else 1 <<< bit_width N (value - 1)

/-- The statement `rotate = rotate % N;` in `rotl` and `rotr` as C evaluates
it: `rotate` has type `int` and `N` has type `unsigned`, so the usual
arithmetic conversions convert `rotate` to `unsigned` (its value modulo
`2 ^ 32`) and the remainder is computed in unsigned arithmetic; the result,
being `< N`, converts back to `int` unchanged. -/
def reduceRotate (N : Nat) (rotate : Int) : Int :=
  (((rotate % (2 ^ 32 : Int)).toNat % N : Nat) : Int)

mutual

/-- The function `rotl<T>` from `bit.h`: the rotation amount is reduced by
`rotate = rotate % N`, a zero reduced amount returns the value unchanged, a
negative reduced amount delegates to `rotr` with the negated amount, and
otherwise the result is `(value << rotate) | (value >> (N - rotate))` in the
`N`-bit unsigned type. -/
def rotl (N value : Nat) (rotate : Int) : Nat :=
  if reduceRotate N rotate = 0 then value
  else if h : reduceRotate N rotate < 0 then rotr N value (-reduceRotate N rotate)
  else ((value <<< (reduceRotate N rotate).toNat) % 2 ^ N) |||
    (value >>> (N - (reduceRotate N rotate).toNat))
termination_by (0 : Nat)
decreasing_by
  simp only [reduceRotate] at h
  omega

/-- The function `rotr<T>` from `bit.h`: mirror image of `rotl`, with result
`(value >> rotate) | (value << (N - rotate))`. -/
def rotr (N value : Nat) (rotate : Int) : Nat :=
  if reduceRotate N rotate = 0 then value
  else if h : reduceRotate N rotate < 0 then rotl N value (-reduceRotate N rotate)
  else (value >>> (reduceRotate N rotate).toNat) |||
    ((value <<< (N - (reduceRotate N rotate).toNat)) % 2 ^ N)
termination_by (0 : Nat)
decreasing_by
  simp only [reduceRotate] at h
  omega

end

/-- The function `first_leading_zero<T>` from `bit.h`:
`value == cpp::numeric_limits<T>::max() ? 0 : countl_one(value) + 1`. -/
def first_leading_zero (N value : Nat) : Nat :=
  if value = 2 ^ N - 1 then 0 else countl_one N value + 1

/-- The function `first_leading_one<T>` from `bit.h`:
`first_leading_zero(static_cast<T>(~value))`. -/
def first_leading_one (N value : Nat) : Nat :=
  first_leading_zero N ((2 ^ N - 1) ^^^ value)

/-! Helper lemmas about `builtin_ctz`. -/

theorem builtin_ctz_zero : builtin_ctz 0 = 0 := by
  rw [builtin_ctz]
  simp

theorem builtin_ctz_odd (v : Nat) (h : v % 2 = 1) : builtin_ctz v = 0 := by
  rw [builtin_ctz]
  simp [h]

theorem builtin_ctz_even (v : Nat) (h0 : v ≠ 0) (h : v % 2 = 0) :
    builtin_ctz v = builtin_ctz (v / 2) + 1 := by
  rw [builtin_ctz]
  rw [if_neg]
  rintro (rfl | h1) <;> omega

theorem builtin_ctz_spec : ∀ v : Nat, v ≠ 0 →
    v % 2 ^ builtin_ctz v = 0 ∧ v / 2 ^ builtin_ctz v % 2 = 1 := by
  intro v
  induction v using Nat.strong_induction_on with
  | _ v ih =>
    intro hv
    rcases Nat.even_or_odd v with he | ho
    · have h2 : v % 2 = 0 := Nat.even_iff.mp he
      have hhalf : v / 2 ≠ 0 := by omega
      have hlt : v / 2 < v := by omega
      obtain ⟨hmod, hodd⟩ := ih (v / 2) hlt hhalf
      rw [builtin_ctz_even v hv h2]
      have hsplit : v = v / 2 * 2 := by omega
      constructor
      · rw [pow_succ]
        calc v % (2 ^ builtin_ctz (v / 2) * 2)
            = (v / 2 * 2) % (2 ^ builtin_ctz (v / 2) * 2) := by rw [← hsplit]
          _ = v / 2 % 2 ^ builtin_ctz (v / 2) * 2 := Nat.mul_mod_mul_right 2 _ _
          _ = 0 := by rw [hmod]
      · rw [pow_succ, Nat.mul_comm, ← Nat.div_div_eq_div_mul]
        exact hodd
    · have h2 : v % 2 = 1 := Nat.odd_iff.mp ho
      rw [builtin_ctz_odd v h2]
      exact ⟨by omega, by simpa using h2⟩

theorem builtin_ctz_pow_le (v : Nat) (hv : v ≠ 0) : 2 ^ builtin_ctz v ≤ v :=
  Nat.le_of_dvd (Nat.pos_of_ne_zero hv)
    (Nat.dvd_of_mod_eq_zero (builtin_ctz_spec v hv).1)

theorem builtin_ctz_lt_of_mod_ne (v s : Nat) (hs : v % 2 ^ s ≠ 0) :
    builtin_ctz v < s := by
  by_contra hcon
  push_neg at hcon
  have hv : v ≠ 0 := by
    intro h0
    rw [h0] at hs
    exact hs (Nat.zero_mod _)
  have h1 : (2 : Nat) ^ s ∣ 2 ^ builtin_ctz v := Nat.pow_dvd_pow 2 hcon
  have h2 : (2 : Nat) ^ builtin_ctz v ∣ v :=
    Nat.dvd_of_mod_eq_zero (builtin_ctz_spec v hv).1
  exact hs (Nat.mod_eq_zero_of_dvd (h1.trans h2))

theorem builtin_ctz_shift (s : Nat) : ∀ v : Nat, v ≠ 0 → v % 2 ^ s = 0 →
    builtin_ctz v = s + builtin_ctz (v >>> s) := by
  induction s with
  | zero =>
    intro v _ _
    simp [Nat.shiftRight_zero]
  | succ s ih =>
    intro v hv hmod
    obtain ⟨t, rfl⟩ := Nat.dvd_of_mod_eq_zero hmod
    have ht : t ≠ 0 := by
      rintro rfl
      exact hv (by simp)
    have hpos : (0 : Nat) < 2 ^ s := Nat.pos_pow_of_pos s (by omega)
    have h2 : 2 ^ (s + 1) * t % 2 = 0 := by
      have : 2 ^ (s + 1) * t = 2 * (2 ^ s * t) := by ring
      omega
    have hv2 : 2 ^ (s + 1) * t / 2 = 2 ^ s * t := by
      have : 2 ^ (s + 1) * t = 2 ^ s * t * 2 := by ring
      rw [this, Nat.mul_div_cancel _ (by omega)]
    have hne : 2 ^ s * t ≠ 0 := by positivity
    have hmod2 : 2 ^ s * t % 2 ^ s = 0 := Nat.mul_mod_right _ _
    rw [builtin_ctz_even _ hv h2, hv2, ih (2 ^ s * t) hne hmod2]
    have hsr : (2 ^ (s + 1) * t) >>> (s + 1) = (2 ^ s * t) >>> s := by
      rw [Nat.shiftRight_eq_div_pow, Nat.shiftRight_eq_div_pow,
        Nat.mul_div_cancel_left t (Nat.pos_pow_of_pos (s + 1) (by omega)),
        Nat.mul_div_cancel_left t hpos]
    rw [hsr]
    omega

/-! Arithmetic helpers for masks and disjoint bitwise or. -/

theorem two_pow_sub_one_shiftRight (a b : Nat) :
    (2 ^ (a + b) - 1) >>> a = 2 ^ b - 1 := by
  have ha : (0 : Nat) < 2 ^ a := Nat.pos_pow_of_pos a (by omega)
  have hb : (0 : Nat) < 2 ^ b := Nat.pos_pow_of_pos b (by omega)
  have hab : (2 : Nat) ^ (a + b) = 2 ^ a * 2 ^ b := pow_add 2 a b
  have hle : (2 : Nat) ^ a ≤ 2 ^ a * 2 ^ b := Nat.le_mul_of_pos_right _ hb
  have hmul : (2 : Nat) ^ a * (2 ^ b - 1) = 2 ^ a * 2 ^ b - 2 ^ a :=
    Nat.mul_sub_one .. ▸ by rw [Nat.mul_sub]
  have h1 : (2 : Nat) ^ (a + b) - 1 = (2 ^ a - 1) + 2 ^ a * (2 ^ b - 1) := by
    rw [hmul, hab]
    omega
  rw [Nat.shiftRight_eq_div_pow, h1, Nat.add_mul_div_left _ _ ha,
    Nat.div_eq_of_lt (by omega)]
  omega

theorem or_two_pow_mul_add (K t b : Nat) (hb : b < 2 ^ K) :
    (2 ^ K * t) ||| b = 2 ^ K * t + b :=
  (Nat.mul_add_lt_is_or hb t).symm

/-! Correctness of the `countr_zero` bisection loop.  The loop invariant: at
entry `shift` is a power of two `2 ^ k`, `mask = 2 ^ shift - 1`, the running
value is nonzero with fewer than `2 * shift` trailing zeros, and the bits
accumulated so far in `zero_bits` are all multiples of `2 * shift`. -/

theorem countr_zero_loop_eq : ∀ k v zb : Nat, v ≠ 0 →
    builtin_ctz v < 2 * 2 ^ k → 2 ^ (k + 1) ∣ zb →
    countr_zero_loop v zb (2 ^ k) (2 ^ 2 ^ k - 1) = zb + builtin_ctz v := by
  intro k
  induction k with
  | zero =>
    intro v zb hv hlt hdvd
    obtain ⟨t, rfl⟩ := hdvd
    simp only [Nat.zero_add, pow_zero, pow_one] at *
    rw [countr_zero_loop]
    have e1 : (1 : Nat) >>> 1 = 0 := rfl
    rcases Nat.even_or_odd v with he | ho
    · have h2 : v % 2 = 0 := Nat.even_iff.mp he
      have hand : v &&& (2 - 1) = 0 := by
        norm_num [Nat.and_one_is_mod, h2]
      rw [if_neg one_ne_zero, if_pos hand, e1, countr_zero_loop, if_pos rfl]
      have hor : 2 * t ||| 1 = 2 * t + 1 := by
        have := or_two_pow_mul_add 1 t 1 (by norm_num)
        simpa [pow_one] using this
      have hc : builtin_ctz v = builtin_ctz (v / 2) + 1 := builtin_ctz_even v hv h2
      rw [hor]
      omega
    · have h2 : v % 2 = 1 := Nat.odd_iff.mp ho
      have hand : ¬ v &&& (2 - 1) = 0 := by
        norm_num [Nat.and_one_is_mod, h2]
      rw [if_neg one_ne_zero, if_neg hand, e1, countr_zero_loop, if_pos rfl,
        builtin_ctz_odd v h2]
      omega
  | succ k ih =>
    intro v zb hv hlt hdvd
    have hk1 : ¬ (2 : Nat) ^ (k + 1) = 0 := by positivity
    have hsplit : (2 : Nat) ^ (k + 1) = 2 ^ k + 2 ^ k := by
      rw [pow_succ]
      omega
    have hshift : (2 : Nat) ^ (k + 1) >>> 1 = 2 ^ k := by
      rw [Nat.shiftRight_eq_div_pow, pow_one, pow_succ,
        Nat.mul_div_cancel _ (by omega)]
    have hmasks : (2 ^ 2 ^ (k + 1) - 1) >>> 2 ^ k = 2 ^ 2 ^ k - 1 := by
      rw [hsplit]
      exact two_pow_sub_one_shiftRight _ _
    have h2k : 2 * 2 ^ k = 2 ^ (k + 1) := by
      rw [pow_succ]
      omega
    rw [countr_zero_loop, if_neg hk1, Nat.and_pow_two_sub_one_eq_mod,
      hshift, hmasks]
    by_cases hc : v % 2 ^ 2 ^ (k + 1) = 0
    · rw [if_pos hc]
      obtain ⟨t, rfl⟩ := hdvd
      have hb : (2 : Nat) ^ (k + 1) < 2 ^ (k + 1 + 1) :=
        Nat.pow_lt_pow_right (by omega) (by omega)
      have hor : 2 ^ (k + 1 + 1) * t ||| 2 ^ (k + 1) =
          2 ^ (k + 1 + 1) * t + 2 ^ (k + 1) :=
        or_two_pow_mul_add (k + 1 + 1) t _ hb
      rw [hor]
      have hge : 2 ^ 2 ^ (k + 1) ≤ v :=
        Nat.le_of_dvd (Nat.pos_of_ne_zero hv) (Nat.dvd_of_mod_eq_zero hc)
      have hvs : v >>> 2 ^ (k + 1) ≠ 0 := by
        rw [Nat.shiftRight_eq_div_pow]
        have h1 : 1 ≤ v / 2 ^ 2 ^ (k + 1) :=
          (Nat.le_div_iff_mul_le (by positivity)).mpr (by omega)
        omega
      have hcs : builtin_ctz v = 2 ^ (k + 1) + builtin_ctz (v >>> 2 ^ (k + 1)) :=
        builtin_ctz_shift _ v hv hc
      have hlt2 : builtin_ctz (v >>> 2 ^ (k + 1)) < 2 * 2 ^ k := by
        omega
      have hdvd2 : 2 ^ (k + 1) ∣ 2 ^ (k + 1 + 1) * t + 2 ^ (k + 1) :=
        ⟨2 * t + 1, by rw [pow_succ]; ring⟩
      rw [ih (v >>> 2 ^ (k + 1)) _ hvs hlt2 hdvd2]
      omega
    · rw [if_neg hc]
      have hltc : builtin_ctz v < 2 * 2 ^ k := by
        have h1 := builtin_ctz_lt_of_mod_ne v (2 ^ (k + 1)) hc
        omega
      have hdvd2 : 2 ^ (k + 1) ∣ zb :=
        dvd_trans (Nat.pow_dvd_pow 2 (by omega)) hdvd
      exact ih v zb hv hltc hdvd2

/-- The generic bisection `countr_zero` agrees with the builtin-backed
specialization on every `N`-bit value, for every power-of-two width
`N = 2 ^ m`. -/
theorem countr_zero_eq_specialized (m v : Nat) (hm : 1 ≤ m)
    (hv : v < 2 ^ 2 ^ m) :
    countr_zero (2 ^ m) v = countr_zero_specialized (2 ^ m) v := by
  obtain ⟨n, rfl⟩ : ∃ n, m = n + 1 := ⟨m - 1, by omega⟩
  rw [countr_zero, countr_zero_specialized]
  by_cases h0 : v = 0
  · rw [if_pos h0, if_pos h0]
  rw [if_neg h0, if_neg h0]
  rcases Nat.even_or_odd v with he | ho
  · have h2 : v % 2 = 0 := Nat.even_iff.mp he
    have hand : ¬ v &&& 1 ≠ 0 := by
      rw [Nat.and_one_is_mod, h2]
      simp
    rw [if_neg hand]
    have hshift : (2 : Nat) ^ (n + 1) >>> 1 = 2 ^ n := by
      rw [Nat.shiftRight_eq_div_pow, pow_one, pow_succ,
        Nat.mul_div_cancel _ (by omega)]
    have hsplit : (2 : Nat) ^ (n + 1) = 2 ^ n + 2 ^ n := by
      rw [pow_succ]
      omega
    have hmask : (2 ^ 2 ^ (n + 1) - 1) >>> 2 ^ n = 2 ^ 2 ^ n - 1 := by
      rw [hsplit]
      exact two_pow_sub_one_shiftRight _ _
    rw [hshift, hmask]
    have hlt : builtin_ctz v < 2 * 2 ^ n := by
      have h1 : 2 ^ builtin_ctz v ≤ v := builtin_ctz_pow_le v h0
      have h2c : builtin_ctz v < 2 ^ (n + 1) := by
        by_contra hcon
        push_neg at hcon
        have h3 : (2 : Nat) ^ 2 ^ (n + 1) ≤ 2 ^ builtin_ctz v :=
          Nat.pow_le_pow_right (by omega) hcon
        omega
      have h3 : 2 * 2 ^ n = 2 ^ (n + 1) := by
        rw [pow_succ]
        omega
      omega
    rw [countr_zero_loop_eq n v 0 h0 hlt (dvd_zero _)]
    omega
  · have h2 : v % 2 = 1 := Nat.odd_iff.mp ho
    have hand : v &&& 1 ≠ 0 := by
      rw [Nat.and_one_is_mod, h2]
      omega
    rw [if_pos hand, builtin_ctz_odd v h2]

/-! Correctness of the `countl_zero` bisection loop. -/

theorem log_two_shiftRight (v s : Nat) (h : 2 ^ s ≤ v) :
    Nat.log 2 (v >>> s) = Nat.log 2 v - s := by
  have hpos : (0 : Nat) < 2 ^ s := Nat.pos_pow_of_pos s (by omega)
  have hv : v ≠ 0 := by omega
  have hL : s ≤ Nat.log 2 v := (Nat.pow_le_iff_le_log one_lt_two hv).mp h
  rw [Nat.shiftRight_eq_div_pow]
  apply Nat.log_eq_of_pow_le_of_lt_pow
  · apply (Nat.le_div_iff_mul_le hpos).mpr
    rw [← pow_add]
    have he : Nat.log 2 v - s + s = Nat.log 2 v := by omega
    rw [he]
    exact Nat.pow_log_le_self 2 hv
  · apply (Nat.div_lt_iff_lt_mul hpos).mpr
    calc v < 2 ^ (Nat.log 2 v + 1) := Nat.lt_pow_succ_log_self one_lt_two v
      _ ≤ 2 ^ (Nat.log 2 v - s + 1) * 2 ^ s := by
          rw [← pow_add]
          exact Nat.pow_le_pow_right (by omega) (by omega)

theorem countl_zero_loop_eq : ∀ k v zb : Nat, v ≠ 0 → v < 2 ^ 2 ^ (k + 1) →
    2 ^ (k + 1) ∣ zb →
    countl_zero_loop v zb (2 ^ k) = zb + (2 ^ (k + 1) - 1 - Nat.log 2 v) := by
  intro k
  induction k with
  | zero =>
    intro v zb hv hlt hdvd
    obtain ⟨t, rfl⟩ := hdvd
    simp only [Nat.zero_add, pow_zero, pow_one] at *
    have h4 : v < 4 := by omega
    have hor : 2 * t ||| 1 = 2 * t + 1 := by
      have := or_two_pow_mul_add 1 t 1 (by norm_num)
      simpa [pow_one] using this
    have hcase : v = 1 ∨ v = 2 ∨ v = 3 := by omega
    rcases hcase with rfl | rfl | rfl
    · have he : countl_zero_loop 1 (2 * t) 1 = 2 * t ||| 1 := by
        simp [countl_zero_loop]
      rw [he, hor, Nat.log_one_right]
    · have he : countl_zero_loop 2 (2 * t) 1 = 2 * t := by
        simp [countl_zero_loop]
      have hl : Nat.log 2 2 = 1 :=
        Nat.log_eq_of_pow_le_of_lt_pow (by norm_num) (by norm_num)
      rw [he, hl]
      omega
    · have he : countl_zero_loop 3 (2 * t) 1 = 2 * t := by
        simp [countl_zero_loop]
      have hl : Nat.log 2 3 = 1 :=
        Nat.log_eq_of_pow_le_of_lt_pow (by norm_num) (by norm_num)
      rw [he, hl]
      omega
  | succ k ih =>
    intro v zb hv hlt hdvd
    have hk1 : ¬ (2 : Nat) ^ (k + 1) = 0 := by positivity
    have hshift : (2 : Nat) ^ (k + 1) >>> 1 = 2 ^ k := by
      rw [Nat.shiftRight_eq_div_pow, pow_one, pow_succ,
        Nat.mul_div_cancel _ (by omega)]
    have hp : (2 : Nat) ^ (k + 1 + 1) = 2 ^ (k + 1) + 2 ^ (k + 1) := by
      rw [pow_succ]
      omega
    rw [countl_zero_loop, if_neg hk1, hshift]
    by_cases hc : v >>> 2 ^ (k + 1) ≠ 0
    · rw [if_pos hc]
      have hge : 2 ^ 2 ^ (k + 1) ≤ v := by
        have h1 : v >>> 2 ^ (k + 1) ≠ 0 := hc
        rw [Nat.shiftRight_eq_div_pow] at h1
        exact (Nat.one_le_div_iff (by positivity)).mp (Nat.pos_of_ne_zero h1)
      have htlt : v >>> 2 ^ (k + 1) < 2 ^ 2 ^ (k + 1) := by
        rw [Nat.shiftRight_eq_div_pow]
        apply (Nat.div_lt_iff_lt_mul (by positivity)).mpr
        calc v < 2 ^ 2 ^ (k + 1 + 1) := hlt
          _ = 2 ^ 2 ^ (k + 1) * 2 ^ 2 ^ (k + 1) := by rw [hp, pow_add]
      have hdvd2 : 2 ^ (k + 1) ∣ zb :=
        dvd_trans (Nat.pow_dvd_pow 2 (by omega)) hdvd
      rw [ih (v >>> 2 ^ (k + 1)) zb hc htlt hdvd2]
      rw [log_two_shiftRight v (2 ^ (k + 1)) hge]
      have hlv : 2 ^ (k + 1) ≤ Nat.log 2 v :=
        (Nat.pow_le_iff_le_log one_lt_two hv).mp hge
      have hub : Nat.log 2 v < 2 ^ (k + 1 + 1) := Nat.log_lt_of_lt_pow hv hlt
      omega
    · rw [if_neg hc]
      push_neg at hc
      have hvlt : v < 2 ^ 2 ^ (k + 1) := by
        rw [Nat.shiftRight_eq_div_pow] at hc
        exact (Nat.div_eq_zero_iff (by positivity)).mp hc
      obtain ⟨t, rfl⟩ := hdvd
      have hor : 2 ^ (k + 1 + 1) * t ||| 2 ^ (k + 1) =
          2 ^ (k + 1 + 1) * t + 2 ^ (k + 1) :=
        or_two_pow_mul_add (k + 1 + 1) t _
          (Nat.pow_lt_pow_right (by omega) (by omega))
      have hdvd2 : 2 ^ (k + 1) ∣ 2 ^ (k + 1 + 1) * t + 2 ^ (k + 1) :=
        ⟨2 * t + 1, by rw [pow_succ]; ring⟩
      rw [hor, ih v _ hv hvlt hdvd2]
      have hub : Nat.log 2 v < 2 ^ (k + 1) := Nat.log_lt_of_lt_pow hv hvlt
      omega

/-- Evaluation of the generic bisection `countl_zero` on power-of-two widths:
on a nonzero `N`-bit value it returns `N - 1` minus the index of the highest
set bit. -/
theorem countl_zero_eq (m v : Nat) (hm : 1 ≤ m) (hv : v < 2 ^ 2 ^ m) :
    countl_zero (2 ^ m) v =
      if v = 0 then 2 ^ m else 2 ^ m - 1 - Nat.log 2 v := by
  obtain ⟨n, rfl⟩ : ∃ n, m = n + 1 := ⟨m - 1, by omega⟩
  rw [countl_zero]
  by_cases h0 : v = 0
  · rw [if_pos h0, if_pos h0]
  rw [if_neg h0, if_neg h0]
  have hshift : (2 : Nat) ^ (n + 1) >>> 1 = 2 ^ n := by
    rw [Nat.shiftRight_eq_div_pow, pow_one, pow_succ,
      Nat.mul_div_cancel _ (by omega)]
  rw [hshift, countl_zero_loop_eq n v 0 h0 hv (dvd_zero _)]
  omega

/-- The generic bisection `countl_zero` agrees with the builtin-backed
specialization on every `N`-bit value, for every power-of-two width
`N = 2 ^ m`. -/
theorem countl_zero_eq_specialized (m v : Nat) (hm : 1 ≤ m)
    (hv : v < 2 ^ 2 ^ m) :
    countl_zero (2 ^ m) v = countl_zero_specialized (2 ^ m) v := by
  rw [countl_zero_eq m v hm hv, countl_zero_specialized, builtin_clz]

/-! Claim theorems for the zero counters. -/

/-- C1: for every unsigned integer width with a hardware-backed specialization
of `countr_zero` or `countl_zero` (`unsigned short` = 16 bits,
`unsigned int` = 32 bits, `unsigned long` and `unsigned long long` = 64 bits),
the specialized function returns the same result as the generic bisection
implementation on every one of the `2 ^ N` inputs of that width, including the
zero input. -/
theorem specializations_agree_C1 (v : Nat) :
    (v < 2 ^ 16 → countr_zero_specialized 16 v = countr_zero 16 v ∧
      countl_zero_specialized 16 v = countl_zero 16 v) ∧
    (v < 2 ^ 32 → countr_zero_specialized 32 v = countr_zero 32 v ∧
      countl_zero_specialized 32 v = countl_zero 32 v) ∧
    (v < 2 ^ 64 → countr_zero_specialized 64 v = countr_zero 64 v ∧
      countl_zero_specialized 64 v = countl_zero 64 v) := by
  have h16 : (16 : Nat) = 2 ^ 4 := by norm_num
  have h32 : (32 : Nat) = 2 ^ 5 := by norm_num
  have h64 : (64 : Nat) = 2 ^ 6 := by norm_num
  refine ⟨fun h => ?_, fun h => ?_, fun h => ?_⟩
  · have hv : v < 2 ^ 2 ^ 4 := by norm_num at h ⊢; exact h
    rw [h16]
    exact ⟨(countr_zero_eq_specialized 4 v (by norm_num) hv).symm,
      (countl_zero_eq_specialized 4 v (by norm_num) hv).symm⟩
  · have hv : v < 2 ^ 2 ^ 5 := by norm_num at h ⊢; exact h
    rw [h32]
    exact ⟨(countr_zero_eq_specialized 5 v (by norm_num) hv).symm,
      (countl_zero_eq_specialized 5 v (by norm_num) hv).symm⟩
  · have hv : v < 2 ^ 2 ^ 6 := by norm_num at h ⊢; exact h
    rw [h64]
    exact ⟨(countr_zero_eq_specialized 6 v (by norm_num) hv).symm,
      (countl_zero_eq_specialized 6 v (by norm_num) hv).symm⟩

/-- Closed witness for C1 at `v = 40`, covering all three widths. -/
theorem specializations_agree_C1_witness :
    ((40 : Nat) < 2 ^ 16 ∧
      countr_zero_specialized 16 40 = countr_zero 16 40 ∧
      countl_zero_specialized 16 40 = countl_zero 16 40) ∧
    ((40 : Nat) < 2 ^ 32 ∧
      countr_zero_specialized 32 40 = countr_zero 32 40 ∧
      countl_zero_specialized 32 40 = countl_zero 32 40) ∧
    ((40 : Nat) < 2 ^ 64 ∧
      countr_zero_specialized 64 40 = countr_zero 64 40 ∧
      countl_zero_specialized 64 40 = countl_zero 64 40) :=
  ⟨⟨by norm_num, (specializations_agree_C1 40).1 (by norm_num)⟩,
   ⟨by norm_num, (specializations_agree_C1 40).2.1 (by norm_num)⟩,
   ⟨by norm_num, (specializations_agree_C1 40).2.2 (by norm_num)⟩⟩

/-- C2: on every power-of-two width `N = 2 ^ m`, `countr_zero` returns `N`
exactly on the zero input, and on a nonzero input it returns the index of the
least significant set bit: shifting the value right by the result yields an
odd number. -/
theorem countr_zero_correct_C2 (m v : Nat) (hm : 1 ≤ m) (hv : v < 2 ^ 2 ^ m) :
    (countr_zero (2 ^ m) v = 2 ^ m ↔ v = 0) ∧
    (v ≠ 0 → (v >>> countr_zero (2 ^ m) v) % 2 = 1) := by
  have he := countr_zero_eq_specialized m v hm hv
  constructor
  · constructor
    · intro h
      by_contra h0
      rw [he, countr_zero_specialized, if_neg h0] at h
      have h1 := builtin_ctz_pow_le v h0
      have h2 : builtin_ctz v < 2 ^ m := by
        by_contra hcon
        push_neg at hcon
        have h3 : (2 : Nat) ^ 2 ^ m ≤ 2 ^ builtin_ctz v :=
          Nat.pow_le_pow_right (by omega) hcon
        omega
      omega
    · intro h0
      rw [he, countr_zero_specialized, if_pos h0]
  · intro h0
    rw [he, countr_zero_specialized, if_neg h0, Nat.shiftRight_eq_div_pow]
    exact (builtin_ctz_spec v h0).2

/-- Closed witness for C2 at `m = 4`, `v = 12`. -/
theorem countr_zero_correct_C2_witness :
    1 ≤ 4 ∧ (12 : Nat) < 2 ^ 2 ^ 4 ∧
      ((countr_zero (2 ^ 4) 12 = 2 ^ 4 ↔ (12 : Nat) = 0) ∧
        ((12 : Nat) ≠ 0 → (12 >>> countr_zero (2 ^ 4) 12) % 2 = 1)) :=
  ⟨by norm_num, by norm_num, countr_zero_correct_C2 4 12 (by norm_num) (by norm_num)⟩

/-- C3: on every power-of-two width `N = 2 ^ m`, `countl_zero` returns `N`
exactly on the zero input, and on a nonzero input the bit at position
`N - 1 - countl_zero` is set while every higher bit is zero. -/
theorem countl_zero_correct_C3 (m v : Nat) (hm : 1 ≤ m) (hv : v < 2 ^ 2 ^ m) :
    (countl_zero (2 ^ m) v = 2 ^ m ↔ v = 0) ∧
    (v ≠ 0 → Nat.testBit v (2 ^ m - 1 - countl_zero (2 ^ m) v) = true ∧
      ∀ j, 2 ^ m - 1 - countl_zero (2 ^ m) v < j → Nat.testBit v j = false) := by
  have he := countl_zero_eq m v hm hv
  have hN : 2 ≤ 2 ^ m := by
    calc (2 : Nat) = 2 ^ 1 := (pow_one 2).symm
      _ ≤ 2 ^ m := Nat.pow_le_pow_right (by omega) hm
  constructor
  · constructor
    · intro h
      by_contra h0
      rw [he, if_neg h0] at h
      omega
    · intro h0
      rw [he, if_pos h0]
  · intro h0
    rw [he, if_neg h0]
    have hlog_lt : Nat.log 2 v < 2 ^ m := Nat.log_lt_of_lt_pow h0 hv
    have hidx : 2 ^ m - 1 - (2 ^ m - 1 - Nat.log 2 v) = Nat.log 2 v := by omega
    rw [hidx]
    constructor
    · rw [Nat.testBit_to_div_mod]
      have h1 : v / 2 ^ Nat.log 2 v = 1 := by
        have hl := Nat.pow_log_le_self 2 h0
        have hge : 1 ≤ v / 2 ^ Nat.log 2 v :=
          (Nat.one_le_div_iff (by positivity)).mpr hl
        have hlt2 : v / 2 ^ Nat.log 2 v < 2 := by
          apply (Nat.div_lt_iff_lt_mul (by positivity)).mpr
          calc v < 2 ^ (Nat.log 2 v + 1) := Nat.lt_pow_succ_log_self one_lt_two v
            _ = 2 * 2 ^ Nat.log 2 v := by rw [pow_succ]; ring
        omega
      rw [h1]
      rfl
    · intro j hj
      apply Nat.testBit_lt_two_pow
      calc v < 2 ^ (Nat.log 2 v + 1) := Nat.lt_pow_succ_log_self one_lt_two v
        _ ≤ 2 ^ j := Nat.pow_le_pow_right (by omega) (by omega)

/-- Closed witness for C3 at `m = 4`, `v = 12`. -/
theorem countl_zero_correct_C3_witness :
    1 ≤ 4 ∧ (12 : Nat) < 2 ^ 2 ^ 4 ∧
      ((countl_zero (2 ^ 4) 12 = 2 ^ 4 ↔ (12 : Nat) = 0) ∧
        ((12 : Nat) ≠ 0 →
          Nat.testBit 12 (2 ^ 4 - 1 - countl_zero (2 ^ 4) 12) = true ∧
          ∀ j, 2 ^ 4 - 1 - countl_zero (2 ^ 4) 12 < j →
            Nat.testBit 12 j = false)) :=
  ⟨by norm_num, by norm_num, countl_zero_correct_C3 4 12 (by norm_num) (by norm_num)⟩

/-! Width, floor and ceiling. -/

theorem bit_width_eq (m v : Nat) (hm : 1 ≤ m) (hv : v < 2 ^ 2 ^ m) :
    bit_width (2 ^ m) v = if v = 0 then 0 else Nat.log 2 v + 1 := by
  rw [bit_width, countl_zero_eq m v hm hv]
  by_cases h0 : v = 0
  · rw [if_pos h0, if_pos h0]
    omega
  · rw [if_neg h0, if_neg h0]
    have hlog : Nat.log 2 v < 2 ^ m := Nat.log_lt_of_lt_pow h0 hv
    omega

/-- C7: on every power-of-two width `N = 2 ^ m`, `bit_floor 0 = 0`, and on a
positive input the result is a power of two with
`bit_floor value ≤ value < 2 * bit_floor value`. -/
theorem bit_floor_correct_C7 (m v : Nat) (hm : 1 ≤ m) (hv : v < 2 ^ 2 ^ m) :
    bit_floor (2 ^ m) 0 = 0 ∧
    (0 < v → (∃ j, bit_floor (2 ^ m) v = 2 ^ j) ∧
      bit_floor (2 ^ m) v ≤ v ∧ v < 2 * bit_floor (2 ^ m) v) := by
  constructor
  · rw [bit_floor, if_pos rfl]
  · intro hpos
    have h0 : v ≠ 0 := by omega
    have hfe : bit_floor (2 ^ m) v = 2 ^ Nat.log 2 v := by
      rw [bit_floor, if_neg h0, bit_width_eq m v hm hv, if_neg h0,
        Nat.shiftLeft_eq, one_mul]
      norm_num
    refine ⟨⟨Nat.log 2 v, hfe⟩, ?_, ?_⟩
    · rw [hfe]
      exact Nat.pow_log_le_self 2 h0
    · rw [hfe]
      calc v < 2 ^ (Nat.log 2 v + 1) := Nat.lt_pow_succ_log_self one_lt_two v
        _ = 2 * 2 ^ Nat.log 2 v := by rw [pow_succ]; ring

/-- Closed witness for C7 at `m = 4`, `v = 5` (the spec's example
`bit_floor(5) == 4`). -/
theorem bit_floor_correct_C7_witness :
    1 ≤ 4 ∧ (5 : Nat) < 2 ^ 2 ^ 4 ∧
      (bit_floor (2 ^ 4) 0 = 0 ∧
        (0 < 5 → (∃ j, bit_floor (2 ^ 4) 5 = 2 ^ j) ∧
          bit_floor (2 ^ 4) 5 ≤ 5 ∧ 5 < 2 * bit_floor (2 ^ 4) 5)) :=
  ⟨by norm_num, by norm_num, bit_floor_correct_C7 4 5 (by norm_num) (by norm_num)⟩

/-- C6: on every power-of-two width `N = 2 ^ m`, `bit_ceil 0 = 1` and
`bit_ceil 1 = 1`; on an input greater than `1` whose rounded-up power of two
is representable in the type (the documented precondition, stated here as the
existence of a representable power of two at least the input), the result is
a power of two with `bit_ceil value / 2 < value ≤ bit_ceil value`. -/
theorem bit_ceil_correct_C6 (m v : Nat) (hm : 1 ≤ m) (hv : v < 2 ^ 2 ^ m) :
    bit_ceil (2 ^ m) 0 = 1 ∧ bit_ceil (2 ^ m) 1 = 1 ∧
    (1 < v → (∃ k, k < 2 ^ m ∧ v ≤ 2 ^ k) →
      (∃ j, bit_ceil (2 ^ m) v = 2 ^ j) ∧
      bit_ceil (2 ^ m) v / 2 < v ∧ v ≤ bit_ceil (2 ^ m) v) := by
  refine ⟨by rw [bit_ceil, if_pos (by omega)], by rw [bit_ceil, if_pos (by omega)],
    fun hgt _ => ?_⟩
  have h1 : v - 1 ≠ 0 := by omega
  have hv1 : v - 1 < 2 ^ 2 ^ m := by omega
  have hce : bit_ceil (2 ^ m) v = 2 ^ (Nat.log 2 (v - 1) + 1) := by
    rw [bit_ceil, if_neg (by omega), bit_width_eq m (v - 1) hm hv1, if_neg h1,
      Nat.shiftLeft_eq, one_mul]
  refine ⟨⟨Nat.log 2 (v - 1) + 1, hce⟩, ?_, ?_⟩
  · rw [hce]
    have hhalf : 2 ^ (Nat.log 2 (v - 1) + 1) / 2 = 2 ^ Nat.log 2 (v - 1) := by
      rw [pow_succ, Nat.mul_div_cancel _ (by omega)]
    rw [hhalf]
    have := Nat.pow_log_le_self 2 h1
    omega
  · rw [hce]
    have := Nat.lt_pow_succ_log_self one_lt_two (v - 1)
    omega

/-- Closed witness for C6 at `m = 4`, `v = 5` (the spec's example
`bit_ceil(5) == 8`). -/
theorem bit_ceil_correct_C6_witness :
    1 ≤ 4 ∧ (5 : Nat) < 2 ^ 2 ^ 4 ∧
      (bit_ceil (2 ^ 4) 0 = 1 ∧ bit_ceil (2 ^ 4) 1 = 1 ∧
        (1 < 5 → (∃ k, k < 2 ^ 4 ∧ 5 ≤ 2 ^ k) →
          (∃ j, bit_ceil (2 ^ 4) 5 = 2 ^ j) ∧
          bit_ceil (2 ^ 4) 5 / 2 < 5 ∧ 5 ≤ bit_ceil (2 ^ 4) 5)) :=
  ⟨by norm_num, by norm_num, bit_ceil_correct_C6 4 5 (by norm_num) (by norm_num)⟩

/-! Rotation. -/

theorem reduceRotate_nonneg (N : Nat) (r : Int) : 0 ≤ reduceRotate N r := by
  unfold reduceRotate
  exact Int.natCast_nonneg _

theorem reduceRotate_lt (N : Nat) (hN : 0 < N) (r : Int) :
    reduceRotate N r < ((N : Nat) : Int) := by
  unfold reduceRotate
  exact Int.ofNat_lt.mpr (Nat.mod_lt _ hN)

theorem reduceRotate_eq_emod (m : Nat) (hm : m ≤ 32) (r : Int) :
    reduceRotate (2 ^ m) r = r % ((2 : Int) ^ m) := by
  unfold reduceRotate
  have h2 : ((2 : Int) ^ 32) ≠ 0 := by positivity
  have hnn : 0 ≤ r % (2 ^ 32 : Int) := Int.emod_nonneg r h2
  rw [Int.ofNat_emod, Int.toNat_of_nonneg hnn]
  have hcast : ((2 ^ m : Nat) : Int) = (2 : Int) ^ m := by push_cast; ring
  rw [hcast]
  exact Int.emod_emod_of_dvd r (pow_dvd_pow 2 hm)

theorem rot_or_left (N k v : Nat) (hk : k ≤ N) (hv : v < 2 ^ N) :
    ((v <<< k) % 2 ^ N) ||| (v >>> (N - k)) =
      v % 2 ^ (N - k) * 2 ^ k + v / 2 ^ (N - k) := by
  have hNK : N - k + k = N := by omega
  have hpow : (2 : Nat) ^ (N - k) * 2 ^ k = 2 ^ N := by rw [← pow_add, hNK]
  have hApos : (0 : Nat) < 2 ^ (N - k) := by positivity
  have hBpos : (0 : Nat) < 2 ^ k := by positivity
  have hlo : v % 2 ^ (N - k) < 2 ^ (N - k) := Nat.mod_lt _ hApos
  have hhi : v / 2 ^ (N - k) < 2 ^ k := by
    apply (Nat.div_lt_iff_lt_mul hApos).mpr
    rw [Nat.mul_comm, hpow]
    exact hv
  have hsplit : v = 2 ^ (N - k) * (v / 2 ^ (N - k)) + v % 2 ^ (N - k) :=
    (Nat.div_add_mod v (2 ^ (N - k))).symm
  have h1 : (v <<< k) % 2 ^ N = v % 2 ^ (N - k) * 2 ^ k := by
    rw [Nat.shiftLeft_eq]
    conv_lhs => rw [hsplit]
    rw [Nat.add_mul]
    have e1 : 2 ^ (N - k) * (v / 2 ^ (N - k)) * 2 ^ k
        = v / 2 ^ (N - k) * 2 ^ N := by rw [← hpow]; ring
    rw [e1, Nat.add_comm, Nat.add_mul_mod_self_right]
    exact Nat.mod_eq_of_lt (by
      calc v % 2 ^ (N - k) * 2 ^ k < 2 ^ (N - k) * 2 ^ k :=
            mul_lt_mul_of_pos_right hlo hBpos
        _ = 2 ^ N := hpow)
  rw [h1, Nat.shiftRight_eq_div_pow]
  rw [Nat.mul_comm (v % 2 ^ (N - k)) (2 ^ k),
    or_two_pow_mul_add k (v % 2 ^ (N - k)) (v / 2 ^ (N - k)) hhi]

theorem rot_or_right (N k w : Nat) (hk : k ≤ N) (hw : w < 2 ^ N) :
    (w >>> k) ||| ((w <<< (N - k)) % 2 ^ N) =
      w % 2 ^ k * 2 ^ (N - k) + w / 2 ^ k := by
  have hNK : k + (N - k) = N := by omega
  have hpow : (2 : Nat) ^ k * 2 ^ (N - k) = 2 ^ N := by rw [← pow_add, hNK]
  have hApos : (0 : Nat) < 2 ^ k := by positivity
  have hBpos : (0 : Nat) < 2 ^ (N - k) := by positivity
  have hpow2 : (2 : Nat) ^ (N - k) * 2 ^ k = 2 ^ N := by
    rw [Nat.mul_comm]
    exact hpow
  have hlo : w % 2 ^ k < 2 ^ k := Nat.mod_lt _ hApos
  have hq : w / 2 ^ k < 2 ^ (N - k) := by
    apply (Nat.div_lt_iff_lt_mul hApos).mpr
    rw [hpow2]
    exact hw
  have hsplit : w = 2 ^ k * (w / 2 ^ k) + w % 2 ^ k :=
    (Nat.div_add_mod w (2 ^ k)).symm
  have h1 : (w <<< (N - k)) % 2 ^ N = w % 2 ^ k * 2 ^ (N - k) := by
    rw [Nat.shiftLeft_eq]
    conv_lhs => rw [hsplit]
    rw [Nat.add_mul]
    have e1 : 2 ^ k * (w / 2 ^ k) * 2 ^ (N - k)
        = w / 2 ^ k * 2 ^ N := by rw [← hpow]; ring
    rw [e1, Nat.add_comm, Nat.add_mul_mod_self_right]
    exact Nat.mod_eq_of_lt (by
      calc w % 2 ^ k * 2 ^ (N - k) < 2 ^ k * 2 ^ (N - k) :=
            mul_lt_mul_of_pos_right hlo hBpos
        _ = 2 ^ N := hpow)
  rw [h1, Nat.shiftRight_eq_div_pow, Nat.or_comm,
    Nat.mul_comm (w % 2 ^ k) (2 ^ (N - k)),
    or_two_pow_mul_add (N - k) (w % 2 ^ k) (w / 2 ^ k) hq]

theorem rotl_eval (N v : Nat) (r : Int) (hN : 0 < N) (hv : v < 2 ^ N)
    (hnz : reduceRotate N r ≠ 0) :
    rotl N v r =
      v % 2 ^ (N - (reduceRotate N r).toNat) * 2 ^ (reduceRotate N r).toNat
        + v / 2 ^ (N - (reduceRotate N r).toNat) := by
  have h0 := reduceRotate_nonneg N r
  have hlt := reduceRotate_lt N hN r
  rw [rotl, if_neg hnz, dif_neg (not_lt.mpr h0)]
  exact rot_or_left N (reduceRotate N r).toNat v (by omega) hv

theorem rotr_eval (N w : Nat) (r : Int) (hN : 0 < N) (hw : w < 2 ^ N)
    (hnz : reduceRotate N r ≠ 0) :
    rotr N w r =
      w % 2 ^ (reduceRotate N r).toNat * 2 ^ (N - (reduceRotate N r).toNat)
        + w / 2 ^ (reduceRotate N r).toNat := by
  have h0 := reduceRotate_nonneg N r
  have hlt := reduceRotate_lt N hN r
  rw [rotr, if_neg hnz, dif_neg (not_lt.mpr h0)]
  exact rot_or_right N (reduceRotate N r).toNat w (by omega) hw

theorem rotr_rotl (N v : Nat) (r : Int) (hN : 0 < N) (hv : v < 2 ^ N) :
    rotr N (rotl N v r) r = v := by
  by_cases hz : reduceRotate N r = 0
  · rw [rotl, if_pos hz, rotr, if_pos hz]
  · have h0 := reduceRotate_nonneg N r
    have hlt := reduceRotate_lt N hN r
    obtain ⟨k, hk⟩ : ∃ k : Nat, (reduceRotate N r).toNat = k := ⟨_, rfl⟩
    have hk2 : k < N := by omega
    have hApos : (0 : Nat) < 2 ^ (N - k) := by positivity
    have hBpos : (0 : Nat) < 2 ^ k := by positivity
    have hpow : (2 : Nat) ^ (N - k) * 2 ^ k = 2 ^ N := by
      rw [← pow_add]
      congr 1
      omega
    have hlo : v % 2 ^ (N - k) < 2 ^ (N - k) := Nat.mod_lt _ hApos
    have hhi : v / 2 ^ (N - k) < 2 ^ k := by
      apply (Nat.div_lt_iff_lt_mul hApos).mpr
      rw [Nat.mul_comm, hpow]
      exact hv
    have hwlt : v % 2 ^ (N - k) * 2 ^ k + v / 2 ^ (N - k) < 2 ^ N := by
      have h1 : (v % 2 ^ (N - k) + 1) * 2 ^ k ≤ 2 ^ (N - k) * 2 ^ k :=
        Nat.mul_le_mul_right _ (by omega)
      have h2 : (v % 2 ^ (N - k) + 1) * 2 ^ k
          = v % 2 ^ (N - k) * 2 ^ k + 2 ^ k := by ring
      omega
    rw [rotl_eval N v r hN hv hz, hk, rotr_eval N _ r hN hwlt hz, hk]
    rw [Nat.mul_comm (v % 2 ^ (N - k)) (2 ^ k), Nat.mul_add_mod,
      Nat.mod_eq_of_lt hhi]
    have e2 : (2 ^ k * (v % 2 ^ (N - k)) + v / 2 ^ (N - k)) / 2 ^ k
        = v % 2 ^ (N - k) := by
      rw [Nat.add_comm, Nat.add_mul_div_left _ _ hBpos,
        Nat.div_eq_of_lt hhi, Nat.zero_add]
    rw [e2, Nat.mul_comm]
    exact Nat.div_add_mod v (2 ^ (N - k))

/-- C4: on every power-of-two width `N = 2 ^ m` (with `m ≤ 32`, which covers
every C unsigned integer type), rotating left then right by the same arbitrary
signed amount returns the original value, and rotating left by `0` or by `N`
is the identity. -/
theorem rotation_roundtrip_C4 (m v : Nat) (r : Int) (hm : 1 ≤ m)
    (hm32 : m ≤ 32) (hv : v < 2 ^ 2 ^ m) :
    rotr (2 ^ m) (rotl (2 ^ m) v r) r = v ∧
    rotl (2 ^ m) v 0 = v ∧ rotl (2 ^ m) v ((2 ^ m : Nat) : Int) = v := by
  have hN : (0 : Nat) < 2 ^ m := by positivity
  refine ⟨rotr_rotl (2 ^ m) v r hN hv, ?_, ?_⟩
  · have hz : reduceRotate (2 ^ m) 0 = 0 := by
      rw [reduceRotate_eq_emod m hm32 0]
      simp
    rw [rotl, if_pos hz]
  · have hz : reduceRotate (2 ^ m) ((2 ^ m : Nat) : Int) = 0 := by
      rw [reduceRotate_eq_emod m hm32 _]
      have hcast : ((2 ^ m : Nat) : Int) = (2 : Int) ^ m := by push_cast; ring
      rw [hcast]
      exact Int.emod_self
    rw [rotl, if_pos hz]

/-- Closed witness for C4 at `m = 3` (8-bit width), `v = 77`, `r = -3`. -/
theorem rotation_roundtrip_C4_witness :
    1 ≤ 3 ∧ (3 : Nat) ≤ 32 ∧ (77 : Nat) < 2 ^ 2 ^ 3 ∧
      (rotr (2 ^ 3) (rotl (2 ^ 3) 77 (-3)) (-3) = 77 ∧
        rotl (2 ^ 3) 77 0 = 77 ∧ rotl (2 ^ 3) 77 ((2 ^ 3 : Nat) : Int) = 77) :=
  ⟨by norm_num, by norm_num, by norm_num,
    rotation_roundtrip_C4 3 77 (-3) (by norm_num) (by norm_num) (by norm_num)⟩

/-- C10: for every power-of-two width `N = 2 ^ m` and every signed rotation
amount, the value produced by the reduction `rotate % N` (evaluated as the C
unsigned remainder) is non-negative and less than `N`, so the
negative-amount delegation branch in `rotl`/`rotr` is never taken. -/
theorem rotate_reduction_in_range_C10 (m : Nat) (r : Int) :
    0 ≤ reduceRotate (2 ^ m) r ∧
      reduceRotate (2 ^ m) r < ((2 ^ m : Nat) : Int) ∧
      ¬ reduceRotate (2 ^ m) r < 0 :=
  ⟨reduceRotate_nonneg _ r, reduceRotate_lt _ (by positivity) r,
    not_lt.mpr (reduceRotate_nonneg _ r)⟩

/-- C5 counterexample: with the 32-bit width and rotation amount `-1`
(negative and not a multiple of `N`), the amount after the reduction
`rotate % N` is `31`, not a negative value, so the claimed delegation to the
opposite-direction rotation never happens. -/
theorem rotate_reduction_C5_counterexample :
    reduceRotate 32 (-1) = 31 ∧ ¬ reduceRotate 32 (-1) < 0 := by
  norm_num [reduceRotate]

/-- C5 (amended): in `rotl` and `rotr` the reduction `rotate % N` is computed
in unsigned arithmetic (the `int` amount converts to `unsigned`), so it
equals the non-negative remainder of the amount modulo `N` and is never
negative; the opposite-direction delegation branch exists in the code but is
never executed, so the mutual recursion trivially terminates. -/
theorem rotate_reduction_unsigned_C5 (m : Nat) (r : Int) (hm : 1 ≤ m)
    (hm32 : m ≤ 32) :
    reduceRotate (2 ^ m) r = r % ((2 : Int) ^ m) ∧
      0 ≤ reduceRotate (2 ^ m) r :=
  ⟨reduceRotate_eq_emod m hm32 r, reduceRotate_nonneg _ r⟩

/-- Closed witness for the amended C5 at `m = 5` (32-bit width), `r = -1`. -/
theorem rotate_reduction_unsigned_C5_witness :
    1 ≤ 5 ∧ (5 : Nat) ≤ 32 ∧
      (reduceRotate (2 ^ 5) (-1) = (-1) % ((2 : Int) ^ 5) ∧
        0 ≤ reduceRotate (2 ^ 5) (-1)) :=
  ⟨by norm_num, by norm_num,
    rotate_reduction_unsigned_C5 5 (-1) (by norm_num) (by norm_num)⟩

/-- C8: whenever the double-shift-and-or expression in `rotl`/`rotr` is
evaluated (that is, whenever the reduced rotation amount is nonzero), both
shift amounts — the reduced amount and `N` minus it — lie strictly between
`0` and `N`, so no shift by the full width, a larger amount, or a negative
amount occurs. -/
theorem rotate_shift_amounts_C8 (m : Nat) (r : Int)
    (hnz : reduceRotate (2 ^ m) r ≠ 0) :
    0 < (reduceRotate (2 ^ m) r).toNat ∧
      (reduceRotate (2 ^ m) r).toNat < 2 ^ m ∧
      0 < 2 ^ m - (reduceRotate (2 ^ m) r).toNat ∧
      2 ^ m - (reduceRotate (2 ^ m) r).toNat < 2 ^ m := by
  have h0 := reduceRotate_nonneg (2 ^ m) r
  have h1 := reduceRotate_lt (2 ^ m) (by positivity) r
  omega

/-- Closed witness for C8 at `m = 5` (32-bit width), `r = 3`. -/
theorem rotate_shift_amounts_C8_witness :
    reduceRotate (2 ^ 5) 3 ≠ 0 ∧
      (0 < (reduceRotate (2 ^ 5) 3).toNat ∧
        (reduceRotate (2 ^ 5) 3).toNat < 2 ^ 5 ∧
        0 < 2 ^ 5 - (reduceRotate (2 ^ 5) 3).toNat ∧
        2 ^ 5 - (reduceRotate (2 ^ 5) 3).toNat < 2 ^ 5) :=
  ⟨by norm_num [reduceRotate],
    rotate_shift_amounts_C8 5 3 (by norm_num [reduceRotate])⟩

/-! First-leading-zero and first-leading-one helpers. -/

/-- C9: `first_leading_zero` returns the 1-based position, counted from the
most significant bit, of the first zero bit, and `0` when the value is
all-ones; in particular `first_leading_zero` of the maximum is `0`,
`first_leading_zero 0 = 1` and `first_leading_one 0 = 0`. -/
theorem first_leading_C9 (m v : Nat) (hm : 1 ≤ m) (hv : v < 2 ^ 2 ^ m) :
    first_leading_zero (2 ^ m) (2 ^ 2 ^ m - 1) = 0 ∧
    first_leading_zero (2 ^ m) 0 = 1 ∧
    first_leading_one (2 ^ m) 0 = 0 ∧
    (v ≠ 2 ^ 2 ^ m - 1 →
      1 ≤ first_leading_zero (2 ^ m) v ∧
      first_leading_zero (2 ^ m) v ≤ 2 ^ m ∧
      Nat.testBit v (2 ^ m - first_leading_zero (2 ^ m) v) = false ∧
      ∀ j, 2 ^ m - first_leading_zero (2 ^ m) v < j → j < 2 ^ m →
        Nat.testBit v j = true) := by
  have hN2 : 2 ≤ 2 ^ m := by
    calc (2 : Nat) = 2 ^ 1 := by norm_num
      _ ≤ 2 ^ m := Nat.pow_le_pow_right (by omega) hm
  have hMpos : (4 : Nat) ≤ 2 ^ 2 ^ m := by
    calc (4 : Nat) = 2 ^ 2 := by norm_num
      _ ≤ 2 ^ 2 ^ m := Nat.pow_le_pow_right (by omega) hN2
  have hlogmax : Nat.log 2 (2 ^ 2 ^ m - 1) = 2 ^ m - 1 := by
    apply Nat.log_eq_of_pow_le_of_lt_pow
    · have h1 : (2 : Nat) ^ (2 ^ m - 1) < 2 ^ 2 ^ m :=
        Nat.pow_lt_pow_right (by omega) (by omega)
      omega
    · have he : 2 ^ m - 1 + 1 = 2 ^ m := by omega
      rw [he]
      omega
  refine ⟨?_, ?_, ?_, ?_⟩
  · rw [first_leading_zero, if_pos rfl]
  · have hne0 : ¬ (0 : Nat) = 2 ^ 2 ^ m - 1 := by omega
    rw [first_leading_zero, if_neg hne0, countl_one, Nat.xor_zero,
      countl_zero_eq m _ hm (by omega),
      if_neg (by omega : ¬ (2 ^ 2 ^ m - 1 = 0)), hlogmax]
    omega
  · rw [first_leading_one, Nat.xor_zero, first_leading_zero, if_pos rfl]
  · intro hvne
    have hw_lt : (2 ^ 2 ^ m - 1) ^^^ v < 2 ^ 2 ^ m :=
      Nat.xor_lt_two_pow (by omega) hv
    have hw_ne : (2 ^ 2 ^ m - 1) ^^^ v ≠ 0 := by
      intro h
      exact hvne (Nat.xor_eq_zero.mp h).symm
    rw [first_leading_zero, if_neg hvne, countl_one,
      countl_zero_eq m _ hm hw_lt, if_neg hw_ne]
    obtain ⟨L, hL⟩ : ∃ L, Nat.log 2 ((2 ^ 2 ^ m - 1) ^^^ v) = L := ⟨_, rfl⟩
    rw [hL]
    have hLlt : L < 2 ^ m := by
      rw [← hL]
      exact Nat.log_lt_of_lt_pow hw_ne hw_lt
    have hidx : 2 ^ m - (2 ^ m - 1 - L + 1) = L := by omega
    rw [hidx]
    refine ⟨by omega, by omega, ?_, ?_⟩
    · have hwbit : Nat.testBit ((2 ^ 2 ^ m - 1) ^^^ v) L = true := by
        rw [Nat.testBit_to_div_mod]
        have h1 : ((2 ^ 2 ^ m - 1) ^^^ v) / 2 ^ L = 1 := by
          have hl : 2 ^ L ≤ (2 ^ 2 ^ m - 1) ^^^ v := by
            rw [← hL]
            exact Nat.pow_log_le_self 2 hw_ne
          have hu := Nat.lt_pow_succ_log_self one_lt_two ((2 ^ 2 ^ m - 1) ^^^ v)
          rw [hL] at hu
          have hge : 1 ≤ ((2 ^ 2 ^ m - 1) ^^^ v) / 2 ^ L :=
            (Nat.one_le_div_iff (by positivity)).mpr hl
          have hlt2 : ((2 ^ 2 ^ m - 1) ^^^ v) / 2 ^ L < 2 := by
            apply (Nat.div_lt_iff_lt_mul (by positivity)).mpr
            calc (2 ^ 2 ^ m - 1) ^^^ v < 2 ^ (L + 1) := hu
              _ = 2 * 2 ^ L := by rw [pow_succ]; ring
          omega
        rw [h1]
        rfl
      rw [Nat.testBit_xor, Nat.testBit_two_pow_sub_one] at hwbit
      rw [decide_eq_true hLlt, Bool.true_xor] at hwbit
      simpa using hwbit
    · intro j hj1 hj2
      have hwbit : Nat.testBit ((2 ^ 2 ^ m - 1) ^^^ v) j = false := by
        apply Nat.testBit_lt_two_pow
        have hu := Nat.lt_pow_succ_log_self one_lt_two ((2 ^ 2 ^ m - 1) ^^^ v)
        rw [hL] at hu
        calc (2 ^ 2 ^ m - 1) ^^^ v < 2 ^ (L + 1) := hu
          _ ≤ 2 ^ j := Nat.pow_le_pow_right (by omega) (by omega)
      rw [Nat.testBit_xor, Nat.testBit_two_pow_sub_one] at hwbit
      rw [decide_eq_true hj2, Bool.true_xor] at hwbit
      simpa using hwbit

/-- Closed witness for C9 at `m = 3` (8-bit width), `v = 0xBF` (first zero
bit at 1-based position 2 from the most significant bit). -/
theorem first_leading_C9_witness :
    1 ≤ 3 ∧ (191 : Nat) < 2 ^ 2 ^ 3 ∧
      (first_leading_zero (2 ^ 3) (2 ^ 2 ^ 3 - 1) = 0 ∧
        first_leading_zero (2 ^ 3) 0 = 1 ∧
        first_leading_one (2 ^ 3) 0 = 0 ∧
        ((191 : Nat) ≠ 2 ^ 2 ^ 3 - 1 →
          1 ≤ first_leading_zero (2 ^ 3) 191 ∧
          first_leading_zero (2 ^ 3) 191 ≤ 2 ^ 3 ∧
          Nat.testBit 191 (2 ^ 3 - first_leading_zero (2 ^ 3) 191) = false ∧
          ∀ j, 2 ^ 3 - first_leading_zero (2 ^ 3) 191 < j → j < 2 ^ 3 →
            Nat.testBit 191 j = true)) :=
  ⟨by norm_num, by norm_num, first_leading_C9 3 191 (by norm_num) (by norm_num)⟩

end LibcBit
